import Mathlib

/-!
Verification of the boot-go-blog-aggregator feed polling / ingestion engine
and its HTTP plumbing, as a shallow embedding in Lean 4.

The HTTP handlers and helper functions are embedded from src/main.go; the
feeds / posts / users / feed_follows tables from src/sql/schema/.  The
ingestion engine itself (scheduler, fetcher, post persister) is not among
the source files; its operations are modelled from the specification, each
such definition carrying a doc comment starting `Modelled from the spec:`.
Timestamps are modelled as naturals, uuids and text columns as strings.
-/

namespace BlogAgg

/-- Feed record, from the feeds table in src/sql/schema/006_posts.sql
(id uuid, name, url unique, user_id) together with the nullable
last-fetched timestamp the spec gives every Feed (§3); the migration that
adds that column is not among the source files. -/
structure Feed where
  id : String
  name : String
  url : String
  userId : String
  lastFetchedAt : Option Nat
deriving DecidableEq, Repr

/-- Post record, from the posts table in src/sql/schema/006_posts.sql:
id uuid primary key, title, url unique, description, nullable
published_at, feed_id referencing feeds. -/
structure Post where
  id : String
  createdAt : Nat
  title : String
  url : String
  description : String
  publishedAt : Option Nat
  feedId : String
deriving DecidableEq, Repr

/-- Modelled from the spec: NormalizedEntry (§3) — title, link, description,
published-time-or-absent, produced by the Feed Fetcher. -/
structure Entry where
  title : String
  link : String
  description : String
  pub : Option Nat
deriving DecidableEq, Repr

/-- Modelled from the spec: the tagged result of InsertPost (§6):
success, duplicate-link, or other-failure, the last two distinguishable. -/
inductive InsertResult where
  | inserted
  | duplicateLink
  | otherFailure
deriving DecidableEq, Repr

/-- The link URLs currently present in the Post Store. -/
def postUrls (posts : List Post) : List String :=
  posts.map Post.url

/-- Modelled from the spec: InsertPost (§6).  The uniqueness constraint on
posts.url (src/sql/schema/006_posts.sql) makes a colliding insert report
duplicate-link and store nothing; `fault` injects a non-uniqueness store
failure (e.g. connectivity), which stores nothing and reports
other-failure. -/
def insertPost (fault : Bool) (posts : List Post) (p : Post) :
    InsertResult × List Post :=
  if fault then (.otherFailure, posts)
  else if posts.any fun q => q.url = p.url then (.duplicateLink, posts)
  else (.inserted, posts ++ [p])

/-- Modelled from the spec: the candidate Post record the Post Persister
builds for one entry (§4.3) — new opaque id, timestamps, link, title,
description, published time, feed reference. -/
def mkPost (ident : String) (now : Nat) (fid : String) (e : Entry) : Post :=
  { id := ident, createdAt := now, title := e.title, url := e.link,
    description := e.description, publishedAt := e.pub, feedId := fid }

/-- Outcome of persisting one feed's batch of entries: either every entry
was processed (persisted or recognized as a duplicate), or a hard store
failure aborted the loop; in both cases the Post Store reached so far is
carried. -/
inductive PersistOutcome where
  | ok (posts : List Post)
  | hardFail (posts : List Post)
deriving DecidableEq, Repr

/-- The Post Store carried by a `PersistOutcome`. -/
def PersistOutcome.store : PersistOutcome → List Post
  | .ok s => s
  | .hardFail s => s

/-- Modelled from the spec: the Post Persister loop (§4.3).  Entries are
processed in source order, each built into a candidate Post and inserted;
a duplicate-link result is skipped and processing continues, while an
other-failure aborts the loop at once.  `fault i` tells whether the store
hard-fails on the attempt for the entry at absolute index `i`; `ids`
supplies the fresh opaque ids. -/
def persistEntries (fault : Nat → Bool) (ids : Nat → String) (now : Nat)
    (fid : String) : List Post → List Entry → Nat → PersistOutcome
  | posts, [], _ => .ok posts
  | posts, e :: es, i =>
    match insertPost (fault i) posts (mkPost (ids i) now fid e) with
    | (.otherFailure, s) => .hardFail s
    | (_, s) => persistEntries fault ids now fid s es (i + 1)

/-- A store that never hard-fails. -/
def noFault : Nat → Bool := fun _ => false

/-- A store that hard-fails exactly on the attempt for entry index `k`. -/
def faultAt (k : Nat) : Nat → Bool := fun j => j == k

/-- Modelled from the spec: MarkFetched (§6) — set the last-fetched
timestamp to the current time for the feed identified by URL. -/
def markFetched (feeds : List Feed) (furl : String) (now : Nat) :
    List Feed :=
  feeds.map fun f =>
    if f.url = furl then { f with lastFetchedAt := some now } else f

/-- The durable state the ingestion engine acts on: the Feed Store and the
Post Store. -/
structure Store where
  feeds : List Feed
  posts : List Post
deriving DecidableEq, Repr

/-- Modelled from the spec: one fetch-and-persist task (§4.2–4.3).
`fetched = none` models a fetch or parse failure: the task terminates with
nothing persisted and the watermark untouched.  Otherwise the entries are
persisted; only when every entry was processed without a hard failure is
the feed marked fetched, a hard failure leaving the watermark untouched
and the already-inserted posts in place. -/
def feedTask (fetched : Option (List Entry)) (fault : Nat → Bool)
    (ids : Nat → String) (now : Nat) (f : Feed) (st : Store) : Store :=
  match fetched with
  | none => st
  | some entries =>
    match persistEntries fault ids now f.id st.posts entries 0 with
    | .hardFail s => { st with posts := s }
    | .ok s => { feeds := markFetched st.feeds f.url now, posts := s }

/-- The per-feed inputs of one task of a batch: the feed snapshot, the
fetch result (none = fetch failure), the store fault pattern and the id
supply. -/
structure TaskInput where
  feed : Feed
  fetched : Option (List Entry)
  fault : Nat → Bool
  ids : Nat → String

/-- Modelled from the spec: the effect on the stores of one tick's batch of
per-feed tasks (§4.1); the tasks act on disjoint feeds, so their combined
effect is their composition. -/
def runBatch (now : Nat) (tasks : List TaskInput) (st : Store) : Store :=
  tasks.foldl (fun s t => feedTask t.fetched t.fault t.ids now t.feed s) st

/-- Order on last-fetched timestamps: null (never fetched) first, then
ascending by timestamp. -/
def fetchedLE : Option Nat → Option Nat → Bool
  | none, _ => true
  | some _, none => false
  | some a, some b => a ≤ b

/-- Order on feeds induced by their last-fetched timestamps. -/
def feedLE (a b : Feed) : Bool :=
  fetchedLE a.lastFetchedAt b.lastFetchedAt

/-- Insert a feed into a list sorted by `feedLE`, keeping it sorted. -/
def insertSorted (f : Feed) : List Feed → List Feed
  | [] => [f]
  | g :: gs =>
    if feedLE f g = true then f :: g :: gs else g :: insertSorted f gs

/-- Sort feeds by ascending last-fetched timestamp, null first. -/
def sortFeeds : List Feed → List Feed
  | [] => []
  | f :: fs => insertSorted f (sortFeeds fs)

/-- Modelled from the spec: NextDueFeeds (§6) — the `limit`
least-recently-fetched feeds, ordered by ascending last-fetched timestamp
with null treated as earliest. -/
def nextDueFeeds (feeds : List Feed) (limit : Nat) : List Feed :=
  (sortFeeds feeds).take limit

/-- Observable events of one fetch-and-persist task, in the order the task
performs them: an insert attempt for the entry at index `i` with its
result, or the MarkFetched call with the timestamp it writes. -/
inductive Event where
  | insertAttempt (i : Nat) (r : InsertResult)
  | marked (now : Nat)
deriving DecidableEq, Repr

/-- Modelled from the spec: the Post Persister loop again (§4.3), now also
recording the trace of insert attempts it performs, in order. -/
def persistTrace (fault : Nat → Bool) (ids : Nat → String) (now : Nat)
    (fid : String) : List Post → List Entry → Nat → List Event × PersistOutcome
  | posts, [], _ => ([], .ok posts)
  | posts, e :: es, i =>
    match insertPost (fault i) posts (mkPost (ids i) now fid e) with
    | (.otherFailure, s) => ([.insertAttempt i .otherFailure], .hardFail s)
    | (r, s) =>
      let rest := persistTrace fault ids now fid s es (i + 1)
      (.insertAttempt i r :: rest.1, rest.2)

/-- Modelled from the spec: one fetch-and-persist task together with the
ordered trace of the store operations it performs (§4.3, §5): the insert
attempts in source order, then — only when every entry was processed —
the MarkFetched call. -/
def taskTrace (fetched : Option (List Entry)) (fault : Nat → Bool)
    (ids : Nat → String) (now : Nat) (f : Feed) (st : Store) :
    List Event × Store :=
  match fetched with
  | none => ([], st)
  | some entries =>
    match persistTrace fault ids now f.id st.posts entries 0 with
    | (tr, .hardFail s) => (tr, { st with posts := s })
    | (tr, .ok s) =>
      (tr ++ [.marked now],
       { feeds := markFetched st.feeds f.url now, posts := s })

/-- The entry indices of the insert attempts of a trace, in trace order. -/
def attemptIndices : List Event → List Nat
  | [] => []
  | .insertAttempt i _ :: tl => i :: attemptIndices tl
  | .marked _ :: tl => attemptIndices tl

/-- Whether a trace contains a MarkFetched event. -/
def hasMarked (tr : List Event) : Bool :=
  tr.any fun e => match e with
    | .marked _ => true
    | _ => false

/-- The ordered trace of store operations one fetch-and-persist task
performs. -/
def taskEvents (fetched : Option (List Entry)) (fault : Nat → Bool)
    (ids : Nat → String) (now : Nat) (f : Feed) (st : Store) : List Event :=
  (taskTrace fetched fault ids now f st).1

/-- Split a character sequence on single space characters, keeping empty
fields, as Go strings.Split does with separator " ". -/
def splitChars : List Char → List (List Char)
  | [] => [[]]
  | c :: cs =>
    let r := splitChars cs
    if c = ' ' then [] :: r
    else
      match r with
      | [] => [[c]]
      | w :: ws => (c :: w) :: ws

/-- Go strings.Split(s, " "): the fields of `s` between single spaces,
empty fields kept; the empty string yields one empty field. -/
def goSplitSpace (s : String) : List String :=
  (splitChars s.toList).map fun w => String.mk w

/-- src/main.go getApiKeyFromAuth: split the Authorization header value on
single spaces and require exactly two tokens, returning the second. -/
def getApiKeyFromAuth (auth : String) : Except String String :=
  let token := goSplitSpace auth
  if token.length ≠ 2 then .error "Invalid token"
  else .ok (token.getD 1 "")

/-- The observable outcome of the authentication wrapper: 401 Unauthorized,
500 from a failed user lookup, or the inner handler invoked with the
looked-up user. -/
inductive AuthOutcome where
  | unauthorized
  | lookupFailed
  | handled (user : String)
deriving DecidableEq, Repr

/-- src/main.go apiConfig.authedHandler: reject an empty Authorization
header with 401, reject a header that does not parse with 401, answer 500
when the user lookup fails, and otherwise invoke the inner handler with
the user found for the API key.  `lookup` stands for
DB.GetUserByApiKey. -/
def authedHandler (lookup : String → Option String) (auth : String) :
    AuthOutcome :=
  if auth = "" then .unauthorized
  else
    match getApiKeyFromAuth auth with
    | .error _ => .unauthorized
    | .ok apiKey =>
      match lookup apiKey with
      | none => .lookupFailed
      | some u => .handled u

/-- Feed-follow record, from src/sql/schema/004_feed_follows.sql. -/
structure FeedFollow where
  id : String
  userId : String
  feedId : String
deriving DecidableEq, Repr

/-- The database state the feed-creation handler acts on. -/
structure DB where
  feeds : List Feed
  follows : List FeedFollow
deriving DecidableEq, Repr

/-- The URLs of the stored feeds. -/
def feedUrls (feeds : List Feed) : List String :=
  feeds.map Feed.url

/-- Modelled from the spec: database.CreateFeed is not among the source
files; the unique constraint on feeds.url (src/sql/schema/006_posts.sql)
makes the database reject an insert whose url collides with a stored feed
with an error, storing nothing. -/
def dbCreateFeed (feeds : List Feed) (f : Feed) : Except Unit (List Feed) :=
  if feeds.any fun g => g.url = f.url then .error ()
  else .ok (feeds ++ [f])

/-- src/main.go postFeedsHandler: create the feed (answering 500 and
changing nothing on error), then create the feed follow for the creating
user (answering 500 on error, with no rollback of the feed), and answer
200 on success.  `ffFault` injects a store failure of the feed-follow
insert; `ffId` is its fresh opaque id. -/
def postFeedsHandler (ffFault : Bool) (db : DB) (f : Feed) (ffId : String) :
    Nat × DB :=
  match dbCreateFeed db.feeds f with
  | .error _ => (500, db)
  | .ok feeds1 =>
    if ffFault then (500, { db with feeds := feeds1 })
    else (200, { feeds := feeds1,
                 follows := db.follows ++ [⟨ffId, f.userId, f.id⟩] })

/-! ### Concrete fixtures used to instantiate the theorems -/

/-- A concrete two-entry fetch result. -/
def entries0 : List Entry :=
  [⟨"t1", "L1", "d1", none⟩, ⟨"t2", "L2", "d2", some 3⟩]

/-- A concrete never-fetched feed. -/
def feed0 : Feed := ⟨"f1", "blog", "https://x.test/rss", "u1", none⟩

/-- A concrete store holding `feed0` and no posts. -/
def st0 : Store := ⟨[feed0], []⟩

/-- A concrete supply of fresh ids. -/
def ids0 : Nat → String := fun n => toString n

/-- A concrete Post Store holding one post with link URL L1. -/
def posts0 : List Post := [⟨"p0", 7, "t1", "L1", "d1", none, "f1"⟩]

/-- A second concrete feed, distinct from `feed0`. -/
def feedB : Feed := ⟨"f2", "news", "https://y.test/rss", "u1", none⟩

/-- A concrete store holding `feed0` and `feedB` and no posts. -/
def stAB : Store := ⟨[feed0, feedB], []⟩

/-- A concrete user lookup knowing one user, keyed by the empty API key. -/
def lookup0 : String → Option String :=
  fun k => if k = "" then some "user0" else none

/-- A concrete database holding `feed0` and no follows. -/
def db0 : DB := ⟨[feed0], []⟩

/-- A concrete feed whose URL collides with `feed0`. -/
def feedDup : Feed := ⟨"f9", "dup", "https://x.test/rss", "u2", none⟩

/-! ### Basic facts about the Post Store insert and the persister loop -/

theorem postUrls_append (a b : List Post) :
    postUrls (a ++ b) = postUrls a ++ postUrls b :=
  List.map_append _ _ _

theorem insertPost_fault (posts : List Post) (p : Post) :
    insertPost true posts p = (.otherFailure, posts) := rfl

theorem insertPost_dup {posts : List Post} {p : Post}
    (h : p.url ∈ postUrls posts) :
    insertPost false posts p = (.duplicateLink, posts) := by
  rcases List.mem_map.mp h with ⟨q, hq, hqu⟩
  have hany : posts.any (fun q => q.url = p.url) = true :=
    List.any_eq_true.mpr ⟨q, hq, by simp [hqu]⟩
  simp [insertPost, hany]

theorem insertPost_new {posts : List Post} {p : Post}
    (h : p.url ∉ postUrls posts) :
    insertPost false posts p = (.inserted, posts ++ [p]) := by
  have hany : posts.any (fun q => q.url = p.url) = false := by
    rw [List.any_eq_false]
    intro q hq hqu
    exact h (List.mem_map.mpr ⟨q, hq, by simpa using hqu.symm⟩)
  simp [insertPost, hany]

theorem insertPost_urls_mono (posts : List Post) (p : Post) :
    postUrls posts ⊆ postUrls (insertPost false posts p).2 ∧
    p.url ∈ postUrls (insertPost false posts p).2 := by
  by_cases hm : p.url ∈ postUrls posts
  · rw [insertPost_dup hm]
    exact ⟨List.Subset.refl _, hm⟩
  · rw [insertPost_new hm]
    refine ⟨?_, ?_⟩
    · intro u hu
      rw [postUrls_append]
      exact List.mem_append_left _ hu
    · rw [postUrls_append]
      exact List.mem_append_right _ (by simp [postUrls])

theorem persistEntries_nil (fault : Nat → Bool) (ids : Nat → String)
    (now : Nat) (fid : String) (posts : List Post) (i : Nat) :
    persistEntries fault ids now fid posts [] i = .ok posts := rfl

theorem persistEntries_cons_fault {fault : Nat → Bool} {i : Nat}
    (h : fault i = true) (ids : Nat → String) (now : Nat) (fid : String)
    (posts : List Post) (e : Entry) (es : List Entry) :
    persistEntries fault ids now fid posts (e :: es) i = .hardFail posts := by
  simp [persistEntries, h, insertPost]

theorem persistEntries_cons_noFault {fault : Nat → Bool} {i : Nat}
    (h : fault i = false) (ids : Nat → String) (now : Nat) (fid : String)
    (posts : List Post) (e : Entry) (es : List Entry) :
    persistEntries fault ids now fid posts (e :: es) i =
      persistEntries fault ids now fid
        (insertPost false posts (mkPost (ids i) now fid e)).2 es (i + 1) := by
  by_cases hm : (mkPost (ids i) now fid e).url ∈ postUrls posts
  · simp [persistEntries, h, insertPost_dup hm]
  · simp [persistEntries, h, insertPost_new hm]

theorem persist_noFault_ok (ids : Nat → String) (now : Nat) (fid : String)
    (es : List Entry) :
    ∀ (posts : List Post) (i : Nat),
      ∃ s, persistEntries noFault ids now fid posts es i = .ok s ∧
        postUrls posts ⊆ postUrls s ∧ ∀ e ∈ es, e.link ∈ postUrls s := by
  induction es with
  | nil =>
    intro posts i
    exact ⟨posts, rfl, List.Subset.refl _, by simp⟩
  | cons e es ih =>
    intro posts i
    rw [persistEntries_cons_noFault rfl]
    obtain ⟨s, hs, hsub, hmem⟩ :=
      ih (insertPost false posts (mkPost (ids i) now fid e)).2 (i + 1)
    refine ⟨s, hs, ?_, ?_⟩
    · exact List.Subset.trans (insertPost_urls_mono posts _).1 hsub
    · intro e' he'
      rcases List.mem_cons.mp he' with rfl | h'
      · exact hsub (insertPost_urls_mono posts _).2
      · exact hmem e' h'

theorem persist_allDup (ids : Nat → String) (now : Nat) (fid : String)
    (es : List Entry) :
    ∀ (posts : List Post) (i : Nat), (∀ e ∈ es, e.link ∈ postUrls posts) →
      persistEntries noFault ids now fid posts es i = .ok posts := by
  induction es with
  | nil => intro posts i _; rfl
  | cons e es ih =>
    intro posts i h
    rw [persistEntries_cons_noFault rfl]
    have hd : (mkPost (ids i) now fid e).url ∈ postUrls posts :=
      h e (List.mem_cons_self _ _)
    rw [insertPost_dup hd]
    exact ih posts (i + 1) fun e' he' => h e' (List.mem_cons_of_mem _ he')

theorem insertPost_nodup (fault : Bool) (posts : List Post) (p : Post)
    (h : (postUrls posts).Nodup) :
    (postUrls (insertPost fault posts p).2).Nodup := by
  cases fault with
  | true => exact h
  | false =>
    by_cases hm : p.url ∈ postUrls posts
    · rw [insertPost_dup hm]; exact h
    · rw [insertPost_new hm, postUrls_append]
      simp only [List.nodup_append, postUrls] at *
      refine ⟨h, by simp, ?_⟩
      intro u hu hu'
      rcases List.mem_singleton.mp hu' with rfl
      exact hm hu

theorem persist_nodup (fault : Nat → Bool) (ids : Nat → String) (now : Nat)
    (fid : String) (es : List Entry) :
    ∀ (posts : List Post) (i : Nat), (postUrls posts).Nodup →
      (postUrls (persistEntries fault ids now fid posts es i).store).Nodup := by
  induction es with
  | nil => intro posts i h; exact h
  | cons e es ih =>
    intro posts i h
    cases hf : fault i with
    | false =>
      rw [persistEntries_cons_noFault hf]
      exact ih _ (i + 1) (insertPost_nodup false _ _ h)
    | true =>
      rw [persistEntries_cons_fault hf]
      exact h

/-! ### The claims -/

/-- C1.  Ingestion is idempotent on post content: ingesting the same
sequence of entries twice leaves the Post Store exactly as after one
ingestion (so in particular the post count is equal), and the uniqueness
of link URLs in the Post Store is preserved, whatever fresh ids and
timestamps the two cycles use. -/
theorem ingest_idempotent (st : Store) (entries : List Entry) (f : Feed)
    (ids1 ids2 : Nat → String) (now1 now2 : Nat) :
    (feedTask (some entries) noFault ids2 now2 f
        (feedTask (some entries) noFault ids1 now1 f st)).posts
      = (feedTask (some entries) noFault ids1 now1 f st).posts
    ∧ ((postUrls st.posts).Nodup →
        (postUrls (feedTask (some entries) noFault ids1 now1 f st).posts).Nodup) := by
  obtain ⟨s1, hs1, _, hmem⟩ :=
    persist_noFault_ok ids1 now1 f.id entries st.posts 0
  have h1 : feedTask (some entries) noFault ids1 now1 f st =
      { feeds := markFetched st.feeds f.url now1, posts := s1 } := by
    simp [feedTask, hs1]
  have h2 : persistEntries noFault ids2 now2 f.id s1 entries 0 = .ok s1 :=
    persist_allDup ids2 now2 f.id entries s1 0 hmem
  constructor
  · rw [h1]
    simp [feedTask, h2]
  · intro hnd
    rw [h1]
    have := persist_nodup noFault ids1 now1 f.id entries st.posts 0 hnd
    rw [hs1] at this
    exact this

/-- C1 witness: a concrete two-entry feed ingested twice from the empty
stores ends with the same posts as after one ingestion, and link URLs stay
unique. -/
theorem ingest_idempotent_witness :
    (postUrls st0.posts).Nodup ∧
    (postUrls (feedTask (some entries0) noFault ids0 7 feed0 st0).posts).Nodup ∧
    (feedTask (some entries0) noFault ids0 9 feed0
        (feedTask (some entries0) noFault ids0 7 feed0 st0)).posts
      = (feedTask (some entries0) noFault ids0 7 feed0 st0).posts :=
  ⟨by decide,
   (ingest_idempotent st0 entries0 feed0 ids0 ids0 7 9).2 (by decide),
   (ingest_idempotent st0 entries0 feed0 ids0 ids0 7 9).1⟩

/-- C2.  A fetch or parse failure leaves the stores exactly as they were:
zero posts persisted, the feed's watermark unchanged, and the next cycle's
selection unchanged, so the feed stays eligible at its old position. -/
theorem fetch_failure_preserves_state (fault : Nat → Bool)
    (ids : Nat → String) (now : Nat) (f : Feed) (st : Store) (n : Nat) :
    feedTask none fault ids now f st = st
    ∧ (feedTask none fault ids now f st).posts = st.posts
    ∧ (feedTask none fault ids now f st).feeds = st.feeds
    ∧ nextDueFeeds (feedTask none fault ids now f st).feeds n
        = nextDueFeeds st.feeds n :=
  ⟨rfl, rfl, rfl, rfl⟩

/-- C4.  The Post Store insert has three distinguishable outcomes: a
hard store fault stores nothing and reports other-failure; with the store
up, an insert collides exactly when the link URL is already stored, in
which case it stores nothing and reports duplicate-link; the persister
continues past a duplicate entry with the store unchanged, while a hard
failure aborts the loop at once. -/
theorem insertPost_outcomes (posts : List Post) (p : Post) (e : Entry)
    (es : List Entry) (fault : Nat → Bool) (ids : Nat → String) (now : Nat)
    (fid : String) (i : Nat) :
    insertPost true posts p = (.otherFailure, posts)
    ∧ (insertPost false posts p = (.duplicateLink, posts)
        ↔ p.url ∈ postUrls posts)
    ∧ InsertResult.duplicateLink ≠ InsertResult.otherFailure
    ∧ (e.link ∈ postUrls posts →
        persistEntries noFault ids now fid posts (e :: es) i
          = persistEntries noFault ids now fid posts es (i + 1))
    ∧ (fault i = true →
        persistEntries fault ids now fid posts (e :: es) i
          = .hardFail posts) := by
  refine ⟨rfl, ⟨?_, fun h => insertPost_dup h⟩, by decide, ?_, ?_⟩
  · intro heq
    by_cases hm : p.url ∈ postUrls posts
    · exact hm
    · rw [insertPost_new hm] at heq
      simp at heq
  · intro hmem
    have hd : (mkPost (ids i) now fid e).url ∈ postUrls posts := hmem
    rw [persistEntries_cons_noFault rfl, insertPost_dup hd]
  · intro hf
    exact persistEntries_cons_fault hf ids now fid posts e es

/-- C4 witness: a concrete duplicate entry is skipped and the persister
moves on to the rest of the batch with the store unchanged. -/
theorem insertPost_outcomes_witness :
    (⟨"t1", "L1", "d1", none⟩ : Entry).link ∈ postUrls posts0 ∧
    persistEntries noFault ids0 7 "f1" posts0 [⟨"t1", "L1", "d1", none⟩] 0
      = persistEntries noFault ids0 7 "f1" posts0 [] 1 :=
  ⟨by decide,
   (insertPost_outcomes posts0 ⟨"p0", 7, "t1", "L1", "d1", none, "f1"⟩
      ⟨"t1", "L1", "d1", none⟩ [] noFault ids0 7 "f1" 0).2.2.2.1 (by decide)⟩

/-- When the store hard-fails exactly on the attempt for entry index `k`,
the persister aborts there: the outcome is a hard failure whose store
still contains everything stored before, in particular the link of every
entry before index `k`. -/
theorem persist_faultAt (ids : Nat → String) (now : Nat) (fid : String)
    (es : List Entry) :
    ∀ (posts : List Post) (i k : Nat), i ≤ k → k < i + es.length →
      ∃ s, persistEntries (faultAt k) ids now fid posts es i = .hardFail s
        ∧ postUrls posts ⊆ postUrls s
        ∧ ∀ e ∈ es.take (k - i), e.link ∈ postUrls s := by
  induction es with
  | nil =>
    intro posts i k hik hk
    simp at hk
    exact absurd hk (by omega)
  | cons e es ih =>
    intro posts i k hik hk
    by_cases hek : i = k
    · subst hek
      have hf : faultAt i i = true := by simp [faultAt]
      rw [persistEntries_cons_fault hf]
      exact ⟨posts, rfl, List.Subset.refl _, by simp⟩
    · have hlt : i < k := lt_of_le_of_ne hik hek
      have hf : faultAt k i = false := by
        unfold faultAt
        simp
        omega
      rw [persistEntries_cons_noFault hf]
      obtain ⟨s, hs, hsub, hmem⟩ :=
        ih (insertPost false posts (mkPost (ids i) now fid e)).2 (i + 1) k
          hlt (by simp at hk ⊢; omega)
      refine ⟨s, hs, List.Subset.trans (insertPost_urls_mono posts _).1 hsub, ?_⟩
      intro e' he'
      have hsplit : k - i = (k - (i + 1)) + 1 := by omega
      rw [hsplit, List.take_succ_cons] at he'
      rcases List.mem_cons.mp he' with rfl | h'
      · exact hsub (insertPost_urls_mono posts _).2
      · exact hmem e' h'

/-- C5.  If the store hard-fails on entry index K of the batch, the task
aborts with the feed's watermark (indeed the whole Feed Store) unchanged,
while the links of entries 0..K-1 are all present in the Post Store: the
prior successful inserts are not rolled back. -/
theorem partial_failure_frame (st : Store) (entries : List Entry) (f : Feed)
    (ids : Nat → String) (now : Nat) (k : Nat) (hk : k < entries.length) :
    (feedTask (some entries) (faultAt k) ids now f st).feeds = st.feeds
    ∧ ∀ e ∈ entries.take k,
        e.link ∈ postUrls (feedTask (some entries) (faultAt k) ids now f st).posts := by
  obtain ⟨s, hs, hsub, hmem⟩ :=
    persist_faultAt ids now f.id entries st.posts 0 k (Nat.zero_le k)
      (by omega)
  have h1 : feedTask (some entries) (faultAt k) ids now f st =
      { st with posts := s } := by
    simp [feedTask, hs]
  rw [h1]
  exact ⟨rfl, hmem⟩

/-- C5 witness: with a hard store failure on the second of two entries the
watermark of the concrete feed is untouched and the first entry's link is
stored. -/
theorem partial_failure_frame_witness :
    1 < entries0.length
    ∧ (feedTask (some entries0) (faultAt 1) ids0 7 feed0 st0).feeds = st0.feeds
    ∧ "L1" ∈ postUrls (feedTask (some entries0) (faultAt 1) ids0 7 feed0 st0).posts :=
  ⟨by decide,
   (partial_failure_frame st0 entries0 feed0 ids0 7 1 (by decide)).1,
   (partial_failure_frame st0 entries0 feed0 ids0 7 1 (by decide)).2
     ⟨"t1", "L1", "d1", none⟩ (by decide)⟩

/-- A feed the MarkFetched operation touched carries the new timestamp:
every record of the updated Feed Store whose URL is the marked one has its
last-fetched timestamp set to `now`. -/
theorem markFetched_watermark (feeds : List Feed) (furl : String) (now : Nat) :
    ∀ g ∈ markFetched feeds furl now, g.url = furl →
      g.lastFetchedAt = some now := by
  intro g hg hurl
  rcases List.mem_map.mp hg with ⟨f, hf, hfg⟩
  by_cases hu : f.url = furl
  · rw [← hfg]
    simp [hu]
  · rw [← hfg] at hurl
    simp [hu] at hurl

/-- C7.  Per-feed failure isolation: in a batch where feed `a`'s fetch
fails and feed `b`'s succeeds, the batch has exactly the effect of `b`'s
task alone — `b`'s entries are persisted and every record of `b`'s URL in
the Feed Store carries the advanced watermark. -/
theorem batch_failure_isolation (a b : Feed) (es : List Entry)
    (faultA : Nat → Bool) (idsA idsB : Nat → String) (now : Nat)
    (st : Store) :
    runBatch now [⟨a, none, faultA, idsA⟩, ⟨b, some es, noFault, idsB⟩] st
      = feedTask (some es) noFault idsB now b st
    ∧ ∀ g ∈ (runBatch now
          [⟨a, none, faultA, idsA⟩, ⟨b, some es, noFault, idsB⟩] st).feeds,
        g.url = b.url → g.lastFetchedAt = some now := by
  have h1 : runBatch now
      [⟨a, none, faultA, idsA⟩, ⟨b, some es, noFault, idsB⟩] st
      = feedTask (some es) noFault idsB now b st := rfl
  refine ⟨h1, ?_⟩
  rw [h1]
  obtain ⟨s1, hs1, _, _⟩ := persist_noFault_ok idsB now b.id es st.posts 0
  have h2 : (feedTask (some es) noFault idsB now b st).feeds
      = markFetched st.feeds b.url now := by
    simp [feedTask, hs1]
  rw [h2]
  exact markFetched_watermark st.feeds b.url now

/-- C7 witness: on a concrete two-feed batch where the first feed's fetch
fails, the second feed's task runs to completion and its watermark is
advanced. -/
theorem batch_failure_isolation_witness :
    runBatch 7 [⟨feed0, none, noFault, ids0⟩, ⟨feedB, some entries0, noFault, ids0⟩] stAB
      = feedTask (some entries0) noFault ids0 7 feedB stAB
    ∧ (⟨"f2", "news", "https://y.test/rss", "u1", some 7⟩ : Feed).lastFetchedAt
        = some 7 :=
  ⟨(batch_failure_isolation feed0 feedB entries0 noFault ids0 ids0 7 stAB).1,
   (batch_failure_isolation feed0 feedB entries0 noFault ids0 ids0 7 stAB).2
     ⟨"f2", "news", "https://y.test/rss", "u1", some 7⟩ (by decide) (by decide)⟩

/-! ### Ordering facts for the selection policy -/

theorem fetchedLE_total (a b : Option Nat) :
    fetchedLE a b = true ∨ fetchedLE b a = true := by
  cases a <;> cases b <;> simp [fetchedLE, Nat.le_total]

theorem fetchedLE_trans {a b c : Option Nat} (hab : fetchedLE a b = true)
    (hbc : fetchedLE b c = true) : fetchedLE a c = true := by
  cases a <;> cases b <;> cases c <;> simp [fetchedLE] at *
  omega

theorem feedLE_total (a b : Feed) : feedLE a b = true ∨ feedLE b a = true :=
  fetchedLE_total a.lastFetchedAt b.lastFetchedAt

theorem feedLE_trans {a b c : Feed} (hab : feedLE a b = true)
    (hbc : feedLE b c = true) : feedLE a c = true :=
  fetchedLE_trans hab hbc

theorem mem_insertSorted {x f : Feed} : ∀ {l : List Feed},
    x ∈ insertSorted f l ↔ x = f ∨ x ∈ l := by
  intro l
  induction l with
  | nil => simp [insertSorted]
  | cons g gs ih =>
    simp only [insertSorted]
    by_cases h : feedLE f g = true
    · rw [if_pos h]
      simp
    · rw [if_neg h]
      simp [ih]
      tauto

theorem insertSorted_perm (f : Feed) : ∀ (l : List Feed),
    (insertSorted f l).Perm (f :: l)
  | [] => List.Perm.refl _
  | g :: gs => by
    simp only [insertSorted]
    by_cases h : feedLE f g = true
    · rw [if_pos h]
    · rw [if_neg h]
      exact ((insertSorted_perm f gs).cons g).trans (List.Perm.swap f g gs)

theorem pairwise_insertSorted (f : Feed) : ∀ (l : List Feed),
    l.Pairwise (fun a b => feedLE a b = true) →
    (insertSorted f l).Pairwise (fun a b => feedLE a b = true)
  | [], _ => by simp [insertSorted]
  | g :: gs, h => by
    simp only [insertSorted]
    by_cases hfg : feedLE f g = true
    · rw [if_pos hfg]
      refine List.Pairwise.cons ?_ h
      intro x hx
      rcases List.mem_cons.mp hx with rfl | hx'
      · exact hfg
      · exact feedLE_trans hfg (List.rel_of_pairwise_cons h hx')
    · rw [if_neg hfg]
      have hgf : feedLE g f = true := (feedLE_total f g).resolve_left hfg
      refine List.Pairwise.cons ?_
        (pairwise_insertSorted f gs (List.Pairwise.of_cons h))
      intro x hx
      rcases mem_insertSorted.mp hx with rfl | hx'
      · exact hgf
      · exact List.rel_of_pairwise_cons h hx'

theorem sortFeeds_perm : ∀ (l : List Feed), (sortFeeds l).Perm l
  | [] => List.Perm.refl _
  | f :: fs => (insertSorted_perm f (sortFeeds fs)).trans
      ((sortFeeds_perm fs).cons f)

theorem sortFeeds_pairwise : ∀ (l : List Feed),
    (sortFeeds l).Pairwise (fun a b => feedLE a b = true)
  | [] => List.Pairwise.nil
  | f :: fs => pairwise_insertSorted f (sortFeeds fs) (sortFeeds_pairwise fs)

/-- C3.  NextDueFeeds returns exactly min(limit, feed-count) feeds: the
returned sequence is sorted ascending by last-fetched timestamp with null
(never fetched) first, and is a length-`min limit count` prefix of a
permutation of the stored feeds. -/
theorem nextDueFeeds_spec (feeds : List Feed) (limit : Nat) :
    (nextDueFeeds feeds limit).length = min limit feeds.length
    ∧ (nextDueFeeds feeds limit).Pairwise (fun a b => feedLE a b = true)
    ∧ ∃ l : List Feed, l.Perm feeds ∧ nextDueFeeds feeds limit = l.take limit := by
  refine ⟨?_, ?_, sortFeeds feeds, sortFeeds_perm feeds, rfl⟩
  · rw [nextDueFeeds, List.length_take, (sortFeeds_perm feeds).length_eq]
  · exact List.Pairwise.sublist (List.take_sublist _ _) (sortFeeds_pairwise feeds)

/-! ### The trace of one task -/

theorem attemptIndices_append (a b : List Event) :
    attemptIndices (a ++ b) = attemptIndices a ++ attemptIndices b := by
  induction a with
  | nil => rfl
  | cons e tl ih =>
    cases e with
    | insertAttempt i r => simp [attemptIndices, ih]
    | marked t => simp [attemptIndices, ih]

theorem hasMarked_append (a b : List Event) :
    hasMarked (a ++ b) = (hasMarked a || hasMarked b) :=
  List.any_append

theorem persistTrace_cons_fault {fault : Nat → Bool} {i : Nat}
    (h : fault i = true) (ids : Nat → String) (now : Nat) (fid : String)
    (posts : List Post) (e : Entry) (es : List Entry) :
    persistTrace fault ids now fid posts (e :: es) i
      = ([.insertAttempt i .otherFailure], .hardFail posts) := by
  simp [persistTrace, h, insertPost]

theorem persistTrace_cons_noFault {fault : Nat → Bool} {i : Nat}
    (h : fault i = false) (ids : Nat → String) (now : Nat) (fid : String)
    (posts : List Post) (e : Entry) (es : List Entry) :
    ∃ r, persistTrace fault ids now fid posts (e :: es) i
      = (Event.insertAttempt i r ::
          (persistTrace fault ids now fid
            (insertPost false posts (mkPost (ids i) now fid e)).2 es (i + 1)).1,
         (persistTrace fault ids now fid
            (insertPost false posts (mkPost (ids i) now fid e)).2 es (i + 1)).2) := by
  by_cases hm : (mkPost (ids i) now fid e).url ∈ postUrls posts
  · exact ⟨.duplicateLink, by simp [persistTrace, h, insertPost_dup hm]⟩
  · exact ⟨.inserted, by simp [persistTrace, h, insertPost_new hm]⟩

theorem persistTrace_shape (fault : Nat → Bool) (ids : Nat → String)
    (now : Nat) (fid : String) (es : List Entry) :
    ∀ (posts : List Post) (i : Nat),
      attemptIndices (persistTrace fault ids now fid posts es i).1
        = List.range' i
            (attemptIndices (persistTrace fault ids now fid posts es i).1).length
      ∧ (attemptIndices (persistTrace fault ids now fid posts es i).1).length
          ≤ es.length
      ∧ hasMarked (persistTrace fault ids now fid posts es i).1 = false
      ∧ ∀ s, (persistTrace fault ids now fid posts es i).2 = .ok s →
          (attemptIndices (persistTrace fault ids now fid posts es i).1).length
            = es.length := by
  induction es with
  | nil =>
    intro posts i
    exact ⟨rfl, Nat.le_refl _, rfl, fun s _ => rfl⟩
  | cons e es ih =>
    intro posts i
    cases hf : fault i with
    | true =>
      rw [persistTrace_cons_fault hf]
      refine ⟨rfl, by simp [attemptIndices], rfl, ?_⟩
      intro s hs
      simp at hs
    | false =>
      obtain ⟨r, heq⟩ := persistTrace_cons_noFault hf ids now fid posts e es
      rw [heq]
      obtain ⟨h1, h2, h3, h4⟩ :=
        ih (insertPost false posts (mkPost (ids i) now fid e)).2 (i + 1)
      refine ⟨?_, ?_, ?_, ?_⟩
      · simp only [attemptIndices, List.length_cons, List.range'_succ]
        rw [← h1]
      · simp only [attemptIndices, List.length_cons, List.length_cons]
        exact Nat.succ_le_succ h2
      · simpa [hasMarked] using h3
      · intro s hs
        simp only [attemptIndices, List.length_cons]
        rw [h4 s hs]

theorem persistTrace_snd (fault : Nat → Bool) (ids : Nat → String)
    (now : Nat) (fid : String) (es : List Entry) :
    ∀ (posts : List Post) (i : Nat),
      (persistTrace fault ids now fid posts es i).2
        = persistEntries fault ids now fid posts es i := by
  induction es with
  | nil => intro posts i; rfl
  | cons e es ih =>
    intro posts i
    cases hf : fault i with
    | true =>
      rw [persistTrace_cons_fault hf, persistEntries_cons_fault hf]
    | false =>
      obtain ⟨r, heq⟩ := persistTrace_cons_noFault hf ids now fid posts e es
      rw [heq, persistEntries_cons_noFault hf]
      exact ih _ (i + 1)

/-- C6.  Within one feed's task the store operations happen in order: the
insert attempts cover a downward-closed set of entry indices in source
order (the trace's attempt indices are 0,1,2,...), and the MarkFetched
event, when present, is the single last event of the trace and occurs only
when every entry of the batch was processed — never before or during
entry processing.  The traced task computes the same store as the
untraced one. -/
theorem watermark_after_all_entries (entries : List Entry)
    (fault : Nat → Bool) (ids : Nat → String) (now : Nat) (f : Feed)
    (st : Store) :
    attemptIndices (taskEvents (some entries) fault ids now f st)
      = List.range
          (attemptIndices (taskEvents (some entries) fault ids now f st)).length
    ∧ (attemptIndices (taskEvents (some entries) fault ids now f st)).length
        ≤ entries.length
    ∧ (hasMarked (taskEvents (some entries) fault ids now f st) = true →
        (taskEvents (some entries) fault ids now f st).getLast?
            = some (.marked now)
        ∧ hasMarked (taskEvents (some entries) fault ids now f st).dropLast
            = false
        ∧ (attemptIndices (taskEvents (some entries) fault ids now f st)).length
            = entries.length)
    ∧ (taskTrace (some entries) fault ids now f st).2
        = feedTask (some entries) fault ids now f st := by
  obtain ⟨h1, h2, h3, h4⟩ :=
    persistTrace_shape fault ids now f.id entries st.posts 0
  have hsnd := persistTrace_snd fault ids now f.id entries st.posts 0
  rcases hpt : persistTrace fault ids now f.id st.posts entries 0 with ⟨tp, o⟩
  rw [hpt] at h1 h2 h3 h4 hsnd
  dsimp only at h1 h2 h3 h4 hsnd
  cases o with
  | hardFail s =>
    have htask : taskEvents (some entries) fault ids now f st = tp := by
      simp [taskEvents, taskTrace, hpt]
    have htask2 : (taskTrace (some entries) fault ids now f st).2
        = { st with posts := s } := by
      simp [taskTrace, hpt]
    rw [htask, htask2]
    refine ⟨by rw [List.range_eq_range']; exact h1, h2, ?_, ?_⟩
    · intro hm
      rw [h3] at hm
      simp at hm
    · simp [feedTask, ← hsnd]
  | ok s =>
    have htask : taskEvents (some entries) fault ids now f st
        = tp ++ [.marked now] := by
      simp [taskEvents, taskTrace, hpt]
    have htask2 : (taskTrace (some entries) fault ids now f st).2
        = { feeds := markFetched st.feeds f.url now, posts := s } := by
      simp [taskTrace, hpt]
    rw [htask, htask2]
    rw [attemptIndices_append]
    have hidx : attemptIndices [Event.marked now] = [] := rfl
    rw [hidx, List.append_nil]
    refine ⟨by rw [List.range_eq_range']; exact h1, h2, ?_, ?_⟩
    · intro _
      refine ⟨List.getLast?_concat tp, ?_, h4 s rfl⟩
      rw [List.dropLast_concat]
      exact h3
    · simp [feedTask, ← hsnd]

/-- C6 witness: on the concrete feed and entries the trace ends with the
MarkFetched event, its insert attempts are 0 then 1, and no MarkFetched
precedes the final one. -/
theorem watermark_after_all_entries_witness :
    hasMarked (taskEvents (some entries0) noFault ids0 7 feed0 st0) = true
    ∧ (taskEvents (some entries0) noFault ids0 7 feed0 st0).getLast?
        = some (.marked 7) :=
  ⟨by decide,
   ((watermark_after_all_entries entries0 noFault ids0 7 feed0 st0).2.2.1
      (by decide)).1⟩

/-! ### Authentication wrapper and feed creation -/

/-- C9.  The authentication wrapper invokes the inner handler only when
the Authorization header is non-empty and splits on single spaces into
exactly two tokens; otherwise it answers 401 without consulting the user
lookup (the outcome is the same for every lookup).  When the header
parses, the wrapper proceeds to the lookup with the second token — in
particular "Bearer " (trailing space) parses to the empty API key. -/
theorem authedHandler_spec (lookup : String → Option String)
    (auth : String) :
    (∀ u, authedHandler lookup auth = .handled u →
        auth ≠ "" ∧ (goSplitSpace auth).length = 2)
    ∧ ((auth = "" ∨ (goSplitSpace auth).length ≠ 2) →
        ∀ l2 : String → Option String,
          authedHandler l2 auth = .unauthorized)
    ∧ (auth ≠ "" ∧ (goSplitSpace auth).length = 2 →
        authedHandler lookup auth
          = match lookup ((goSplitSpace auth).getD 1 "") with
            | none => .lookupFailed
            | some u => .handled u)
    ∧ getApiKeyFromAuth "Bearer " = .ok "" := by
  refine ⟨?_, ?_, ?_, rfl⟩
  · intro u h
    by_cases he : auth = ""
    · simp [authedHandler, he] at h
    · by_cases h2 : (goSplitSpace auth).length = 2
      · exact ⟨he, h2⟩
      · simp [authedHandler, he, getApiKeyFromAuth, h2] at h
  · intro hbad l2
    by_cases he : auth = ""
    · simp [authedHandler, he]
    · rcases hbad with he' | h2
      · exact absurd he' he
      · simp [authedHandler, he, getApiKeyFromAuth, h2]
  · rintro ⟨he, h2⟩
    simp [authedHandler, he, getApiKeyFromAuth, h2]

/-- C9 witness: "Bearer " is non-empty, splits into two tokens, and leads
the wrapper to the lookup with the empty API key, here finding a user and
invoking the inner handler. -/
theorem authedHandler_spec_witness :
    (("Bearer " : String) ≠ "" ∧ (goSplitSpace "Bearer ").length = 2)
    ∧ authedHandler lookup0 "Bearer " = .handled "user0" := by
  refine ⟨⟨by decide, by decide⟩, ?_⟩
  rw [(authedHandler_spec lookup0 "Bearer ").2.2.1 ⟨by decide, by decide⟩]
  decide

/-- A feed creation whose URL collides with a stored feed is rejected by
the unique constraint: the database errors and stores nothing. -/
theorem dbCreateFeed_dup {feeds : List Feed} {f : Feed}
    (h : f.url ∈ feedUrls feeds) :
    dbCreateFeed feeds f = .error () := by
  rcases List.mem_map.mp h with ⟨g, hg, hgu⟩
  have hany : feeds.any (fun g => g.url = f.url) = true :=
    List.any_eq_true.mpr ⟨g, hg, by simp [hgu]⟩
  simp [dbCreateFeed, hany]

/-- A feed creation with a fresh URL is stored. -/
theorem dbCreateFeed_new {feeds : List Feed} {f : Feed}
    (h : f.url ∉ feedUrls feeds) :
    dbCreateFeed feeds f = .ok (feeds ++ [f]) := by
  have hany : feeds.any (fun g => g.url = f.url) = false := by
    rw [List.any_eq_false]
    intro g hg hgu
    exact h (List.mem_map.mpr ⟨g, hg, by simpa using hgu.symm⟩)
  simp [dbCreateFeed, hany]

/-- C8.  Feed URLs stay globally unique: the feed-creation handler
preserves uniqueness of the stored URLs, and a request whose URL is
already stored is rejected with 500 and changes nothing. -/
theorem feed_url_unique_invariant (ffFault : Bool) (db : DB) (f : Feed)
    (ffId : String) :
    ((feedUrls db.feeds).Nodup →
      (feedUrls (postFeedsHandler ffFault db f ffId).2.feeds).Nodup)
    ∧ (f.url ∈ feedUrls db.feeds →
        postFeedsHandler ffFault db f ffId = (500, db)) := by
  by_cases hm : f.url ∈ feedUrls db.feeds
  · have hres : postFeedsHandler ffFault db f ffId = (500, db) := by
      simp [postFeedsHandler, dbCreateFeed_dup hm]
    refine ⟨fun h => ?_, fun _ => hres⟩
    rw [hres]
    exact h
  · constructor
    · intro hnd
      have hfeeds : (postFeedsHandler ffFault db f ffId).2.feeds
          = db.feeds ++ [f] := by
        cases ffFault <;> simp [postFeedsHandler, dbCreateFeed_new hm]
      rw [hfeeds]
      show (List.map Feed.url (db.feeds ++ [f])).Nodup
      rw [List.map_append]
      simp only [List.nodup_append, List.map_cons, List.map_nil]
      refine ⟨hnd, by simp, ?_⟩
      intro u hu hu'
      rcases List.mem_singleton.mp hu' with rfl
      exact hm hu
    · intro hmem
      exact absurd hmem hm

/-- C8 witness: creating a feed whose URL equals the stored feed's URL is
answered 500 with the database unchanged. -/
theorem feed_url_unique_invariant_witness :
    feedDup.url ∈ feedUrls db0.feeds
    ∧ postFeedsHandler false db0 feedDup "ff1" = (500, db0) :=
  ⟨by decide,
   (feed_url_unique_invariant false db0 feedDup "ff1").2 (by decide)⟩

/-- C10.  Creating a feed also creates a feed-follow, but not atomically:
when the feed insert succeeds and the feed-follow insert then fails, the
handler answers 500 while the new Feed record stays persisted and no
follow is stored — there is no rollback. -/
theorem feed_follow_no_rollback (db : DB) (f : Feed) (ffId : String)
    (hm : f.url ∉ feedUrls db.feeds) :
    postFeedsHandler true db f ffId
      = (500, { feeds := db.feeds ++ [f], follows := db.follows })
    ∧ f ∈ (postFeedsHandler true db f ffId).2.feeds := by
  have hres : postFeedsHandler true db f ffId
      = (500, { feeds := db.feeds ++ [f], follows := db.follows }) := by
    simp [postFeedsHandler, dbCreateFeed_new hm]
  refine ⟨hres, ?_⟩
  rw [hres]
  exact List.mem_append_right _ (List.mem_singleton.mpr rfl)

/-- C10 witness: a concrete fresh feed whose follow insert fails is
answered 500 and remains stored with no follow recorded. -/
theorem feed_follow_no_rollback_witness :
    feedB.url ∉ feedUrls db0.feeds
    ∧ postFeedsHandler true db0 feedB "ff1"
        = (500, { feeds := db0.feeds ++ [feedB], follows := db0.follows }) :=
  ⟨by decide, (feed_follow_no_rollback db0 feedB "ff1" (by decide)).1⟩

end BlogAgg
